import Mathlib

/-!
Shallow embedding of the core of `src/image_finder.py` from the
Image_smart_finder repository: the pure scanner `scan_images`, the
`ImageListModel` result store, the filtered view provided by the Qt
proxy configured in `ViewModel.__init__`, and an operational model of
the `ViewModel` / `ScanWorker` scan-session protocol.

Modelling conventions:
* Python strings are `String`; Python compares strings by code points,
  embedded here as the executable `strLeB` and proved equivalent to the
  `≤` of the `String` linear order.
* The filesystem is a symlink-free tree (`FSTree`) presented to the
  scanner as what the root path names.  The scanner is run on an
  already resolved absolute root, so `Path.resolve` is the identity on
  every path the walk constructs.
* Qt signal emissions and model notifications are modelled as explicit
  output events; the delivery of a worker's queued signals is one
  atomic step on the foreground thread, matching the ordering
  guarantees stated for the signal/slot handoff.
* `list.sort()` is embedded as an insertion sort; on strings it returns
  the same list as Python's stable sort, because the order is total and
  antisymmetric.
-/

/-- Boolean code-point comparison of characters, as Python compares the
characters of a string. -/
def charLtB (a b : Char) : Bool := decide (a.toNat < b.toNat)

/-- Boolean lexicographic comparison of character lists, as Python
compares strings. -/
def charListLtB : List Char → List Char → Bool
  | [], [] => false
  | [], _ :: _ => true
  | _ :: _, [] => false
  | a :: as, b :: bs => charLtB a b || (a == b && charListLtB as bs)

/-- Boolean string order used by the embedded `list.sort()`:
`s ≤ t` as Python orders strings. -/
def strLeB (s t : String) : Bool := !(charListLtB t.data s.data)

/-- Python `str.lower()` on a string, per-character lowering of the
character list (full multi-character Unicode expansions do not arise for
the ASCII extension names compared here). -/
def strToLower (s : String) : String := String.mk (s.data.map Char.toLower)

/-- A file name that can actually occur as one directory entry:
nonempty and free of the path separator. -/
def validNameB (s : String) : Bool := (s ≠ "" : Bool) && decide ('/' ∉ s.data)

/-- Characters of a name from its last dot (inclusive) to the end, when a
dot occurs at all. -/
def fromLastDot : List Char → Option (List Char)
  | [] => none
  | c :: rest =>
    match fromLastDot rest with
    | some s => some s
    | none => if c = '.' then some (c :: rest) else none

/-- Python `pathlib.PurePath.suffix` on a single file name: the substring
from the last dot when that dot is neither the first nor the last
character of the name, and `""` otherwise. -/
def pathSuffix (name : String) : String :=
  match fromLastDot name.data with
  | none => ""
  | some s =>
    if s.length = name.data.length ∨ s.length = 1 then "" else String.mk s

/-- Characters strictly after the last slash, when a slash occurs. -/
def fromLastSlash : List Char → Option (List Char)
  | [] => none
  | c :: rest =>
    match fromLastSlash rest with
    | some s => some s
    | none => if c = '/' then some rest else none

/-- Python `os.path.basename` for POSIX paths: the part of the path after
its last slash (the whole path when it has no slash). -/
def basename (p : String) : String :=
  match fromLastSlash p.data with
  | none => p
  | some s => String.mk s

/-- Joining one more component onto a directory path, as `pathlib`
renders the paths produced by `rglob` under an absolute root. -/
def joinPath (dir name : String) : String := dir ++ "/" ++ name

/-- Rendering a nonempty segment list as a slash-separated path. -/
def renderPath : List String → String
  | [] => ""
  | [s] => s
  | s :: rest => s ++ "/" ++ renderPath rest

/-- A symlink-free filesystem tree: a node is a regular file or a
directory with a list of named children. -/
inductive FSTree where
  | file (name : String)
  | dir (name : String) (children : List FSTree)

/-- Name of the directory entry at the root of a tree. -/
def FSTree.name : FSTree → String
  | .file n => n
  | .dir n _ => n

/-- Whether a tree node is a directory (`Path.is_dir`). -/
def FSTree.isDir : FSTree → Bool
  | .file _ => false
  | .dir _ _ => true

/-- Whether what a path names is an existing directory (`Path.is_dir` on
the root argument: `false` both for a missing path and for a regular
file). -/
def entryIsDir : Option FSTree → Bool
  | none => false
  | some t => t.isDir

mutual
/-- Well-formed tree: every name is a possible directory entry and the
children of each directory have pairwise distinct names, as on a real
filesystem. -/
def wfTree : FSTree → Bool
  | .file n => validNameB n
  | .dir n children =>
    validNameB n && decide ((children.map FSTree.name).Nodup) && wfForest children
/-- Well-formed forest: every tree in it is well-formed. -/
def wfForest : List FSTree → Bool
  | [] => true
  | t :: ts => wfTree t && wfForest ts
end

/-- The `IMAGE_EXTENSIONS` tuple of `src/image_finder.py`. -/
def IMAGE_EXTENSIONS : List String :=
  [".png", ".jpg", ".jpeg", ".bmp", ".gif", ".tiff", ".tif", ".webp",
   ".heic", ".heif", ".svg", ".ppm", ".pgm"]

mutual
/-- The body of the `rglob` loop of `scan_images` at one entry: keep a
regular file iff its lower-cased suffix is in the lower-cased extension
list, rendering it as its absolute path under `dir`; recurse into a
directory. -/
def walkTree (exl : List String) (dir : String) : FSTree → List String
  | .file n =>
    if exl.contains (strToLower (pathSuffix n)) then [joinPath dir n] else []
  | .dir n children => walkForest exl (joinPath dir n) children
/-- The `rglob` loop over a list of sibling entries. -/
def walkForest (exl : List String) (dir : String) : List FSTree → List String
  | [] => []
  | t :: ts => walkTree exl dir t ++ walkForest exl dir ts
end

/-- The function `scan_images(root, exts)` of `src/image_finder.py`: if
the root is not an existing directory return `[]`; otherwise collect
every regular file under it whose lower-cased suffix is in the
lower-cased extension list and sort the resulting absolute paths. -/
def scan_images (root : String) (entry : Option FSTree) (exts : List String) :
    List String :=
  match entry with
  | some (FSTree.dir _ children) =>
    List.insertionSort (fun a b => strLeB a b = true)
      (walkForest (exts.map strToLower) root children)
  | _ => []

/-- Location of a regular file inside a tree: the segment list starts
with the name of the tree's root entry and descends to a file. -/
inductive IsFileAt : FSTree → List String → Prop where
  | file (n : String) : IsFileAt (FSTree.file n) [n]
  | dir {c : FSTree} {segs : List String} (n : String) (children : List FSTree)
      (hc : c ∈ children) (h : IsFileAt c segs) :
      IsFileAt (FSTree.dir n children) (n :: segs)

/-- Final segment of a location (the file name). -/
def lastSeg (segs : List String) : String := segs.getLastD ""

/-- Abstraction of the Qt icon `_make_icon(path)` produces: the external
decoding is out of scope, only which path the icon was cached for
matters. -/
structure Icon where
  source : String
deriving DecidableEq

/-- Icon construction (`ImageListModel._make_icon`): external Qt code,
abstracted to its only observable property. -/
def makeIcon (path : String) : Icon := ⟨path⟩

/-- A value returned by `ImageListModel.data` (`None` is `Option.none`
one level up). -/
inductive DataValue where
  | str (s : String)
  | icon (i : Icon)
deriving DecidableEq

/-- A Qt model index, reduced to the two observations `data` makes of it:
validity and row (a valid index has a nonnegative row). -/
structure ModelIndex where
  valid : Bool
  row : Nat
deriving DecidableEq

/-- The `Qt.ItemDataRole` integers used by `ImageListModel`. -/
def displayRole : Nat := 0

/-- Decoration role integer. -/
def decorationRole : Nat := 1

/-- `UserRole + 1`, the custom file-path role of `ImageListModel`. -/
def FILEPATH_ROLE : Nat := 257

/-- Change notification emitted to observers of the model:
`beginResetModel/endResetModel` or
`beginRemoveRows(first, last)/endRemoveRows`. -/
inductive ModelNotif where
  | resetModel
  | removedRows (first last : Nat)
deriving DecidableEq

/-- State of `ImageListModel`: the ordered path list and the thumbnail
cache keyed by path (a Python dict with unique keys). -/
structure ImageListModel where
  paths : List String
  thumbs : List (String × Icon)
deriving DecidableEq

/-- `ImageListModel.rowCount`. -/
def ImageListModel.rowCount (m : ImageListModel) : Nat := m.paths.length

/-- Python `list.index(p)`: index of the first occurrence, if any. -/
def idxOfFirst (p : String) : List String → Option Nat
  | [] => none
  | q :: qs => if q = p then some 0 else (idxOfFirst p qs).map (· + 1)

/-- Python `dict.pop(p, None)` on an association list with unique keys. -/
def removeKey (p : String) : List (String × Icon) → List (String × Icon)
  | [] => []
  | kv :: kvs => if kv.1 = p then kvs else kv :: removeKey p kvs

/-- `ImageListModel.replace(paths)`: swap in the new list, clear the
thumbnail cache, notify observers of a full model reset. -/
def ImageListModel.replace (m : ImageListModel) (ps : List String) :
    ImageListModel × List ModelNotif :=
  (⟨ps, []⟩, [ModelNotif.resetModel])

/-- `ImageListModel.remove_path(path)`: look up the first occurrence
(`list.index`); on `ValueError` return silently; otherwise remove that
row and its cached thumbnail, notifying observers of the single-row
removal. -/
def ImageListModel.remove_path (m : ImageListModel) (p : String) :
    ImageListModel × List ModelNotif :=
  match idxOfFirst p m.paths with
  | none => (m, [])
  | some row =>
    (⟨m.paths.eraseIdx row, removeKey p m.thumbs⟩,
     [ModelNotif.removedRows row row])

/-- `ImageListModel.data(index, role)`: `none` at the outer level models
an uncaught `IndexError` (a fault); `some (v, m)` is a normal return of
`v` with the possibly updated thumbnail cache `m`.  Mirrors the source
order: validity guard, list access, then display, file-path and
decoration roles, then `None`. -/
def ImageListModel.data (m : ImageListModel) (index : ModelIndex) (role : Nat) :
    Option (Option DataValue × ImageListModel) :=
  if index.valid = false then some (none, m)
  else
    match m.paths[index.row]? with
    | none => none
    | some path =>
      if role = displayRole then some (some (DataValue.str (basename path)), m)
      else if role = FILEPATH_ROLE then some (some (DataValue.str path), m)
      else if role = decorationRole then
        match m.thumbs.lookup path with
        | some icon => some (some (DataValue.icon icon), m)
        | none =>
          some (some (DataValue.icon (makeIcon path)),
            ⟨m.paths, m.thumbs ++ [(path, makeIcon path)]⟩)
      else some (none, m)

/-- Whether `sub` occurs as a contiguous run inside `s` (character
lists). -/
def listHasInfixOf (sub : List Char) : List Char → Bool
  | [] => sub.isEmpty
  | c :: rest => sub.isPrefixOf (c :: rest) || listHasInfixOf sub rest

/-- Case-insensitive substring test on strings, as
`QSortFilterProxyModel` with `setFilterCaseSensitivity(CaseInsensitive)`
and `setFilterFixedString` matches a display string. -/
def containsCI (s sub : String) : Bool :=
  listHasInfixOf (strToLower sub).data (strToLower s).data

/-- Modelled from the spec: the `filtered_view(substring)` contract of
the Result Store.  The view itself is computed by Qt's
`QSortFilterProxyModel` (external library code); `ViewModel.__init__`
configures it to filter case-insensitively on the display role, which
`ImageListModel.data` serves as `basename(path)`, and
`ViewModel.set_filter` routes the filter text to
`setFilterFixedString`. -/
def filteredView (paths : List String) (filt : String) : List String :=
  paths.filter (fun p => containsCI (basename p) filt)

/-- Propositional form of the case-insensitive containment used by the
filtered view. -/
def ContainsCISpec (s sub : String) : Prop :=
  ∃ l r, (strToLower s).data = l ++ (strToLower sub).data ++ r

/-- State of one `ScanWorker`: its identity, the path it scans, the
cancellation flag (`_cancel_event`) and whether its `run()` has already
executed. -/
structure ScanWorker where
  wid : Nat
  path : String
  cancelled : Bool
  done : Bool
deriving DecidableEq

/-- Observable effects of one foreground step: the `busyChanged` signal,
a model notification to the view layer, or a logged line from the error
handler. -/
inductive Output where
  | busyChanged (b : Bool)
  | notif (n : ModelNotif)
  | logged (msg : String)
deriving DecidableEq

/-- Events driving the scan-session protocol: a `ViewModel.scan(path)`
call, the foreground delivery of a worker's success (its scan result) or
failure (the exception message), and the `remove_path` call the
surrounding application issues after deleting a file. -/
inductive Event where
  | scanReq (path : String)
  | workerComplete (wid : Nat) (res : List String)
  | workerFail (wid : Nat) (msg : String)
  | removeReq (p : String)

/-- State of the `ViewModel`: the owned `ImageListModel`, the busy flag,
the identity of `_current_worker` and every worker ever started (with a
fresh-id counter). -/
structure VMState where
  model : ImageListModel
  busy : Bool
  currentWorker : Option Nat
  workers : List ScanWorker
  nextId : Nat
deriving DecidableEq

/-- `ViewModel._set_busy(value)`: update and emit `busyChanged` only on
an actual change. -/
def setBusy (s : VMState) (b : Bool) : VMState × List Output :=
  ({ s with busy := b }, if s.busy = b then [] else [Output.busyChanged b])

/-- `ScanWorker.cancel()` on the worker with the given id. -/
def cancelMark (ws : List ScanWorker) (i : Nat) : List ScanWorker :=
  ws.map (fun w => if w.wid = i then { w with cancelled := true } else w)

/-- Mark the worker with the given id as having run. -/
def markDone (ws : List ScanWorker) (i : Nat) : List ScanWorker :=
  ws.map (fun w => if w.wid = i then { w with done := true } else w)

/-- Find the worker with the given id. -/
def findWorker (ws : List ScanWorker) (i : Nat) : Option ScanWorker :=
  ws.find? (fun w => w.wid == i)

/-- `ViewModel.scan(path)`: an invalid path clears the model and returns;
otherwise the in-flight worker, if any, is cancelled and dropped from
`_current_worker`, busy is raised, and a fresh worker becomes current. -/
def stepScan (isDir : String → Bool) (s : VMState) (path : String) :
    VMState × List Output :=
  if path = "" ∨ isDir path = false then
    let mr := s.model.replace []
    ({ s with model := mr.1 }, mr.2.map Output.notif)
  else
    let s1 : VMState :=
      match s.currentWorker with
      | some i => { s with workers := cancelMark s.workers i, currentWorker := none }
      | none => s
    let br := setBusy s1 true
    let s2 := br.1
    ({ s2 with
        workers := s2.workers ++ [⟨s2.nextId, path, false, false⟩],
        currentWorker := some s2.nextId,
        nextId := s2.nextId + 1 }, br.2)

/-- Foreground delivery of a successful `ScanWorker.run`: the `result`
signal is emitted only when the cancel flag is unset (slot
`model.replace`), then the `finished` signal runs `on_finished`, which
drops `_current_worker` when it still is this worker and
unconditionally clears the busy flag. -/
def stepComplete (s : VMState) (wid : Nat) (res : List String) :
    VMState × List Output :=
  match findWorker s.workers wid with
  | none => (s, [])
  | some w =>
    if w.done then (s, [])
    else
      let s0 := { s with workers := markDone s.workers wid }
      let pr :=
        if w.cancelled then (s0, ([] : List Output))
        else
          let mr := s0.model.replace res
          ({ s0 with model := mr.1 }, mr.2.map Output.notif)
      let s1 := pr.1
      let s2 : VMState :=
        { s1 with currentWorker :=
            if s1.currentWorker = some wid then none else s1.currentWorker }
      let br := setBusy s2 false
      (br.1, pr.2 ++ br.2)

/-- Foreground delivery of a failed `ScanWorker.run`: the `error` signal
is emitted only when the cancel flag is unset (slot logs the message),
then the `finished` signal runs `on_finished` as in `stepComplete`. -/
def stepFail (s : VMState) (wid : Nat) (msg : String) :
    VMState × List Output :=
  match findWorker s.workers wid with
  | none => (s, [])
  | some w =>
    if w.done then (s, [])
    else
      let s0 := { s with workers := markDone s.workers wid }
      let out1 : List Output :=
        if w.cancelled then [] else [Output.logged ("Scan error: " ++ msg)]
      let s2 : VMState :=
        { s0 with currentWorker :=
            if s0.currentWorker = some wid then none else s0.currentWorker }
      let br := setBusy s2 false
      (br.1, out1 ++ br.2)

/-- The surrounding application's `remove_path` call on the owned
model. -/
def stepRemove (s : VMState) (p : String) : VMState × List Output :=
  let mr := s.model.remove_path p
  ({ s with model := mr.1 }, mr.2.map Output.notif)

/-- One foreground step of the protocol. -/
def step (isDir : String → Bool) (s : VMState) : Event → VMState × List Output
  | Event.scanReq path => stepScan isDir s path
  | Event.workerComplete wid res => stepComplete s wid res
  | Event.workerFail wid msg => stepFail s wid msg
  | Event.removeReq p => stepRemove s p

/-- Initial `ViewModel` state (`ViewModel.__init__`): empty model, not
busy, no current worker. -/
def initVM : VMState := ⟨⟨[], []⟩, false, none, [], 0⟩

/-- Run a sequence of events from a state. -/
def runTrace (isDir : String → Bool) (s : VMState) : List Event → VMState
  | [] => s
  | e :: es => runTrace isDir (step isDir s e).1 es

/-- The directory oracle for the concrete traces used below: exactly the
paths "A" and "B" name directories. -/
def isDirAB : String → Bool := fun p => p == "A" || p == "B"

/-- The ids of all workers ever started. -/
def workerIds (s : VMState) : List Nat := s.workers.map (fun w => w.wid)

/-- Protocol invariant of the `ViewModel`: worker ids are fresh-bounded
and pairwise distinct, the current worker id is a real worker, and every
live worker (neither cancelled nor finished) is the current one — there
is at most one live session. -/
def VMInv (s : VMState) : Prop :=
  (∀ i ∈ workerIds s, i < s.nextId) ∧
  (workerIds s).Nodup ∧
  (∀ i, s.currentWorker = some i → i ∈ workerIds s) ∧
  (∀ w ∈ s.workers, w.cancelled = false → w.done = false →
    s.currentWorker = some w.wid)

example : pathSuffix "a.png" = ".png" := by decide
example : pathSuffix ".png" = "" := by decide
example : pathSuffix "a." = "" := by decide
example : pathSuffix "archive.tar.gz" = ".gz" := by decide
example : basename "/r/sub/d.webp" = "d.webp" := by decide
example : basename "plain" = "plain" := by decide
example :
    scan_images "/r"
      (some (FSTree.dir "r"
        [FSTree.file "b.JPG", FSTree.file "c.txt", FSTree.file "a.png",
         FSTree.dir "sub" [FSTree.file "d.webp"]]))
      IMAGE_EXTENSIONS = ["/r/a.png", "/r/b.JPG", "/r/sub/d.webp"] := by decide

/-- Boolean character comparison agrees with the character order. -/
theorem charLtB_iff (a b : Char) : charLtB a b = true ↔ a < b := by
  simp only [charLtB, decide_eq_true_eq]
  rw [Char.lt_iff_val_lt_val, UInt32.lt_def, BitVec.lt_def]
  exact Iff.rfl

/-- Boolean lexicographic comparison agrees with the lexicographic order
on character lists. -/
theorem charListLtB_iff : ∀ as bs : List Char, charListLtB as bs = true ↔ as < bs
  | [], [] => by
    constructor
    · intro h; exact absurd h (by simp [charListLtB])
    · intro h; cases h
  | [], b :: bs => by
    constructor
    · intro _; exact List.Lex.nil
    · intro _; rfl
  | a :: as, [] => by
    constructor
    · intro h; exact absurd h (by simp [charListLtB])
    · intro h; cases h
  | a :: as, b :: bs => by
    simp only [charListLtB, Bool.or_eq_true, Bool.and_eq_true, beq_iff_eq,
      charLtB_iff, charListLtB_iff as bs]
    constructor
    · rintro (h | ⟨rfl, h⟩)
      · exact List.Lex.rel h
      · exact List.Lex.cons h
    · intro h
      cases h with
      | rel h => exact Or.inl h
      | cons h => exact Or.inr ⟨rfl, h⟩

/-- The Boolean string order used by the embedded sort agrees with the
string order: `strLeB s t` holds exactly when `s ≤ t`. -/
theorem strLeB_iff (s t : String) : strLeB s t = true ↔ s ≤ t := by
  simp only [strLeB, Bool.not_eq_true', ← Bool.not_eq_true, charListLtB_iff]
  constructor
  · intro h
    exact not_lt.mp (fun hlt => h (String.lt_iff_toList_lt.mp hlt))
  · intro h hlt
    exact absurd (String.lt_iff_toList_lt.mpr hlt) (not_lt.mpr h)

theorem IsFileAt.ne_nil {t : FSTree} {segs : List String}
    (h : IsFileAt t segs) : segs ≠ [] := by
  cases h <;> simp

theorem lastSeg_cons_of_ne_nil (n : String) {segs : List String} (h : segs ≠ []) :
    lastSeg (n :: segs) = lastSeg segs := by
  cases segs with
  | nil => exact absurd rfl h
  | cons s rest => simp [lastSeg]

theorem renderPath_join (dir n : String) {segs : List String} (h : segs ≠ []) :
    renderPath (joinPath dir n :: segs) = renderPath (dir :: n :: segs) := by
  cases segs with
  | nil => exact absurd rfl h
  | cons s rest =>
    show joinPath dir n ++ "/" ++ renderPath (s :: rest)
        = dir ++ "/" ++ renderPath (n :: s :: rest)
    show joinPath dir n ++ "/" ++ renderPath (s :: rest)
        = dir ++ "/" ++ (n ++ "/" ++ renderPath (s :: rest))
    simp [joinPath, String.append_assoc]

mutual
/-- Membership in the walk of one entry: exactly the regular files under
it whose lower-cased suffix is accepted, at their rendered path. -/
theorem mem_walkTree_iff : ∀ (t : FSTree) (exl : List String) (dir p : String),
    p ∈ walkTree exl dir t ↔
      ∃ segs, IsFileAt t segs ∧
        exl.contains (strToLower (pathSuffix (lastSeg segs))) = true ∧
        p = renderPath (dir :: segs)
  | .file n, exl, dir, p => by
    simp only [walkTree]
    constructor
    · intro hp
      by_cases hc : exl.contains (strToLower (pathSuffix n)) = true
      · rw [if_pos hc] at hp
        refine ⟨[n], IsFileAt.file n, ?_, ?_⟩
        · simpa [lastSeg] using hc
        · simpa [renderPath, joinPath] using (List.mem_singleton.mp hp)
      · rw [if_neg hc] at hp
        exact absurd hp (List.not_mem_nil p)
    · rintro ⟨segs, hat, hcond, hrender⟩
      cases hat
      have hcond2 : exl.contains (strToLower (pathSuffix n)) = true := hcond
      rw [if_pos hcond2]
      simp [hrender, renderPath, joinPath]
  | .dir n children, exl, dir, p => by
    simp only [walkTree]
    rw [mem_walkForest_iff children exl (joinPath dir n) p]
    constructor
    · rintro ⟨c, hc, segs, hat, hcond, hrender⟩
      refine ⟨n :: segs, IsFileAt.dir n children hc hat, ?_, ?_⟩
      · rwa [lastSeg_cons_of_ne_nil n hat.ne_nil]
      · rw [hrender, renderPath_join dir n hat.ne_nil]
    · rintro ⟨segs, hat, hcond, hrender⟩
      cases hat with
      | dir _ _ hc h =>
        refine ⟨_, hc, _, h, ?_, ?_⟩
        · rwa [lastSeg_cons_of_ne_nil n h.ne_nil] at hcond
        · rw [hrender, renderPath_join dir n h.ne_nil]
/-- Membership in the walk of a sibling list. -/
theorem mem_walkForest_iff : ∀ (ts : List FSTree) (exl : List String) (dir p : String),
    p ∈ walkForest exl dir ts ↔
      ∃ c ∈ ts, ∃ segs, IsFileAt c segs ∧
        exl.contains (strToLower (pathSuffix (lastSeg segs))) = true ∧
        p = renderPath (dir :: segs)
  | [], exl, dir, p => by simp [walkForest]
  | t :: ts, exl, dir, p => by
    simp only [walkForest, List.mem_append, mem_walkTree_iff t exl dir p,
      mem_walkForest_iff ts exl dir p]
    constructor
    · rintro (⟨segs, h⟩ | ⟨c, hc, segs, h⟩)
      · exact ⟨t, List.mem_cons_self t ts, segs, h⟩
      · exact ⟨c, List.mem_cons_of_mem t hc, segs, h⟩
    · rintro ⟨c, hc, segs, h⟩
      rcases List.mem_cons.mp hc with rfl | hc
      · exact Or.inl ⟨segs, h⟩
      · exact Or.inr ⟨c, hc, segs, h⟩
end

theorem validName_noSlash {s : String} (h : validNameB s = true) : '/' ∉ s.data := by
  simp only [validNameB, Bool.and_eq_true, decide_eq_true_eq] at h
  exact h.2

theorem wfTree_validName {t : FSTree} (h : wfTree t = true) :
    validNameB (FSTree.name t) = true := by
  cases t with
  | file n => simpa [wfTree, FSTree.name] using h
  | dir n children =>
    simp only [wfTree, Bool.and_eq_true] at h
    simpa [FSTree.name] using h.1.1

theorem wfTree_dir_parts {n : String} {children : List FSTree}
    (h : wfTree (FSTree.dir n children) = true) :
    validNameB n = true ∧ (children.map FSTree.name).Nodup ∧ wfForest children = true := by
  simp only [wfTree, Bool.and_eq_true, decide_eq_true_eq] at h
  exact ⟨h.1.1, h.1.2, h.2⟩

theorem wfForest_mem : ∀ {ts : List FSTree}, wfForest ts = true →
    ∀ {t : FSTree}, t ∈ ts → wfTree t = true := by
  intro ts
  induction ts with
  | nil => intro _ t ht; exact absurd ht (List.not_mem_nil t)
  | cons c cs ih =>
    intro h t ht
    simp only [wfForest, Bool.and_eq_true] at h
    rcases List.mem_cons.mp ht with rfl | ht
    · exact h.1
    · exact ih h.2 ht

/-- Two slash-free chunks followed by empty-or-slash-starting remainders
can only concatenate to the same list when the chunks agree. -/
theorem seg_head_eq : ∀ {a b r s : List Char},
    '/' ∉ a → '/' ∉ b →
    (r = [] ∨ ∃ u, r = '/' :: u) → (s = [] ∨ ∃ u, s = '/' :: u) →
    a ++ r = b ++ s → a = b := by
  intro a
  induction a with
  | nil =>
    intro b r s _ hb hr _ h
    cases b with
    | nil => rfl
    | cons y ys =>
      rcases hr with rfl | ⟨u, rfl⟩
      · exact absurd h.symm (by simp)
      · have h2 : '/' :: u = y :: (ys ++ s) := by simpa using h
        injection h2 with h2a _
        refine absurd ?_ hb
        rw [← h2a]
        exact List.mem_cons_self '/' ys
  | cons x xs ih =>
    intro b r s ha hb hr hs h
    cases b with
    | nil =>
      rcases hs with rfl | ⟨u, rfl⟩
      · exact absurd h (by simp)
      · have h2 : x :: (xs ++ r) = '/' :: u := by simpa using h
        injection h2 with h2a _
        refine absurd ?_ ha
        rw [h2a]
        exact List.mem_cons_self '/' xs
    | cons y ys =>
      simp only [List.cons_append] at h
      injection h with h1 h2
      subst h1
      have hxs := ih (fun hm => ha (List.mem_cons_of_mem x hm))
        (fun hm => hb (List.mem_cons_of_mem x hm)) hr hs h2
      rw [hxs]

mutual
/-- Every path produced by walking one entry extends `dir`, then a slash,
then the entry's own name, then nothing or a slash-started remainder. -/
theorem walkTree_shape : ∀ (t : FSTree) (exl : List String) (dir p : String),
    p ∈ walkTree exl dir t →
    ∃ r, p.data = dir.data ++ '/' :: ((FSTree.name t).data ++ r) ∧
      (r = [] ∨ ∃ u, r = '/' :: u)
  | .file n, exl, dir, p, hp => by
    simp only [walkTree] at hp
    split at hp
    · have hpj : p = joinPath dir n := List.mem_singleton.mp hp
      refine ⟨[], ?_, Or.inl rfl⟩
      subst hpj
      simp [joinPath, FSTree.name, String.data_append]
    · exact absurd hp (List.not_mem_nil p)
  | .dir n children, exl, dir, p, hp => by
    simp only [walkTree] at hp
    obtain ⟨c, _, r, hshape, _⟩ := walkForest_shape children exl (joinPath dir n) p hp
    refine ⟨'/' :: ((FSTree.name c).data ++ r), ?_, Or.inr ⟨_, rfl⟩⟩
    rw [hshape]
    simp [joinPath, FSTree.name, String.data_append, List.append_assoc]
/-- Forest version of `walkTree_shape`, naming the child the path
came from. -/
theorem walkForest_shape : ∀ (ts : List FSTree) (exl : List String) (dir p : String),
    p ∈ walkForest exl dir ts →
    ∃ c ∈ ts, ∃ r, p.data = dir.data ++ '/' :: ((FSTree.name c).data ++ r) ∧
      (r = [] ∨ ∃ u, r = '/' :: u)
  | [], exl, dir, p, hp => absurd hp (List.not_mem_nil p)
  | t :: ts, exl, dir, p, hp => by
    rcases List.mem_append.mp hp with hp1 | hp2
    · obtain ⟨r, hr, hro⟩ := walkTree_shape t exl dir p hp1
      exact ⟨t, List.mem_cons_self t ts, r, hr, hro⟩
    · obtain ⟨c, hc, r, hr, hro⟩ := walkForest_shape ts exl dir p hp2
      exact ⟨c, List.mem_cons_of_mem t hc, r, hr, hro⟩
end

mutual
/-- The walk of a well-formed entry lists each path at most once. -/
theorem walkTree_nodup : ∀ (t : FSTree) (exl : List String) (dir : String),
    wfTree t = true → (walkTree exl dir t).Nodup
  | .file n, exl, dir, _ => by
    simp only [walkTree]
    split
    · exact List.nodup_singleton _
    · exact List.nodup_nil
  | .dir n children, exl, dir, h => by
    simp only [walkTree]
    obtain ⟨_, hn, hf⟩ := wfTree_dir_parts h
    exact walkForest_nodup children exl (joinPath dir n) hn hf
/-- The walk of a forest of well-formed siblings with distinct names
lists each path at most once: different siblings own disjoint path
sets. -/
theorem walkForest_nodup : ∀ (ts : List FSTree) (exl : List String) (dir : String),
    (ts.map FSTree.name).Nodup → wfForest ts = true → (walkForest exl dir ts).Nodup
  | [], _, _, _, _ => List.nodup_nil
  | t :: ts, exl, dir, hn, hw => by
    simp only [walkForest]
    rw [List.nodup_append]
    obtain ⟨hw1, hw2⟩ : wfTree t = true ∧ wfForest ts = true := by
      simpa [wfForest, Bool.and_eq_true] using hw
    obtain ⟨hn1, hn2⟩ :
        FSTree.name t ∉ ts.map FSTree.name ∧ (ts.map FSTree.name).Nodup := by
      simpa using hn
    refine ⟨walkTree_nodup t exl dir hw1, walkForest_nodup ts exl dir hn2 hw2, ?_⟩
    intro p hp1 hp2
    obtain ⟨r, hr, hro⟩ := walkTree_shape t exl dir p hp1
    obtain ⟨c, hc, s, hs, hso⟩ := walkForest_shape ts exl dir p hp2
    have hcancel : (FSTree.name t).data ++ r = (FSTree.name c).data ++ s := by
      have h1 := (hr.symm.trans hs)
      have h2 := List.append_cancel_left h1
      injection h2
    have hname : FSTree.name t = FSTree.name c := by
      have ht := validName_noSlash (wfTree_validName hw1)
      have hcn := validName_noSlash (wfTree_validName (wfForest_mem hw2 hc))
      have hdata := seg_head_eq ht hcn hro hso hcancel
      exact congrArg String.mk hdata
    exact hn1 (hname ▸ List.mem_map_of_mem FSTree.name hc)
end

theorem contains_iff_mem_str (l : List String) (x : String) :
    l.contains x = true ↔ x ∈ l := by
  simp

/-- C1: on a well-formed directory tree, `scan_images(root, exts)` returns
exactly the regular files under the root whose lower-cased suffix is a
member of the lower-cased extension set — each appearing exactly once
(`Nodup`), as the absolute resolved path under the root, sorted in
ascending lexicographic order. -/
theorem scan_images_spec_c1 (root rname : String) (children : List FSTree)
    (exts : List String) (hwf : wfTree (FSTree.dir rname children) = true) :
    (∀ p, p ∈ scan_images root (some (FSTree.dir rname children)) exts ↔
      ∃ c ∈ children, ∃ segs, IsFileAt c segs ∧
        strToLower (pathSuffix (lastSeg segs)) ∈ exts.map strToLower ∧
        p = renderPath (root :: segs)) ∧
    List.Pairwise (· ≤ ·) (scan_images root (some (FSTree.dir rname children)) exts) ∧
    (scan_images root (some (FSTree.dir rname children)) exts).Nodup := by
  obtain ⟨hvn, hnn, hwff⟩ := wfTree_dir_parts hwf
  have hperm := List.perm_insertionSort (fun a b => strLeB a b = true)
    (walkForest (exts.map strToLower) root children)
  refine ⟨?_, ?_, ?_⟩
  · intro p
    show p ∈ List.insertionSort (fun a b => strLeB a b = true)
      (walkForest (exts.map strToLower) root children) ↔ _
    rw [hperm.mem_iff, mem_walkForest_iff]
    simp only [contains_iff_mem_str]
  · haveI ht : IsTrans String (fun a b => strLeB a b = true) :=
      ⟨fun a b c hab hbc => (strLeB_iff a c).mpr
        (le_trans ((strLeB_iff a b).mp hab) ((strLeB_iff b c).mp hbc))⟩
    haveI hto : IsTotal String (fun a b => strLeB a b = true) :=
      ⟨fun a b => (le_total a b).imp (strLeB_iff a b).mpr (strLeB_iff b a).mpr⟩
    have hs := List.sorted_insertionSort (fun a b => strLeB a b = true)
      (walkForest (exts.map strToLower) root children)
    exact List.Pairwise.imp (fun h => (strLeB_iff _ _).mp h) hs
  · show (List.insertionSort (fun a b => strLeB a b = true)
      (walkForest (exts.map strToLower) root children)).Nodup
    exact hperm.nodup_iff.mpr (walkForest_nodup children _ root hnn hwff)

/-- Witness for C1: the well-formedness hypothesis holds on the concrete
tree of the repository's own test scenario, and the theorem applies. -/
theorem scan_images_spec_c1_witness :
    wfTree (FSTree.dir "r"
      [FSTree.file "b.JPG", FSTree.file "c.txt", FSTree.file "a.png",
       FSTree.dir "sub" [FSTree.file "d.webp"]]) = true ∧
    List.Pairwise (· ≤ ·)
      (scan_images "/r" (some (FSTree.dir "r"
        [FSTree.file "b.JPG", FSTree.file "c.txt", FSTree.file "a.png",
         FSTree.dir "sub" [FSTree.file "d.webp"]])) IMAGE_EXTENSIONS) ∧
    (scan_images "/r" (some (FSTree.dir "r"
        [FSTree.file "b.JPG", FSTree.file "c.txt", FSTree.file "a.png",
         FSTree.dir "sub" [FSTree.file "d.webp"]])) IMAGE_EXTENSIONS).Nodup :=
  ⟨by decide,
   (scan_images_spec_c1 "/r" "r"
      [FSTree.file "b.JPG", FSTree.file "c.txt", FSTree.file "a.png",
       FSTree.dir "sub" [FSTree.file "d.webp"]] IMAGE_EXTENSIONS (by decide)).2.1,
   (scan_images_spec_c1 "/r" "r"
      [FSTree.file "b.JPG", FSTree.file "c.txt", FSTree.file "a.png",
       FSTree.dir "sub" [FSTree.file "d.webp"]] IMAGE_EXTENSIONS (by decide)).2.2⟩

/-- C8: `scan_images` on a path that does not name an existing directory
(missing path, or a regular file) returns the empty list; the embedded
function is total (no exception) and pure, hence idempotent. -/
theorem scan_images_invalid_root_c8 (root : String) (entry : Option FSTree)
    (exts : List String) (h : entryIsDir entry = false) :
    scan_images root entry exts = [] := by
  cases entry with
  | none => rfl
  | some t =>
    cases t with
    | file n => rfl
    | dir n children => simp [entryIsDir, FSTree.isDir] at h

/-- Witness for C8: a missing path and a regular-file path both yield the
empty result. -/
theorem scan_images_invalid_root_c8_witness :
    entryIsDir (some (FSTree.file "notes.txt")) = false ∧
    scan_images "/r" (some (FSTree.file "notes.txt")) IMAGE_EXTENSIONS = [] ∧
    scan_images "/missing" none IMAGE_EXTENSIONS = [] :=
  ⟨by decide,
   scan_images_invalid_root_c8 "/r" (some (FSTree.file "notes.txt"))
     IMAGE_EXTENSIONS (by decide),
   scan_images_invalid_root_c8 "/missing" none IMAGE_EXTENSIONS (by decide)⟩

/-- C3, evaluated at the failing input: after `scan("A")` then
`scan("B")`, worker 0 is the cancelled (superseded) session and session 1
is still in flight (`busy = true`, `currentWorker = some 1`); when the
cancelled worker 0 then completes, the Result Store is indeed untouched,
but `on_finished` unconditionally calls `_set_busy(False)`: the busy flag
drops to `false` and `busyChanged false` is emitted while session 1 is
still in flight — contradicting the claim that a cancelled session causes
no busy-flag side effect. -/
theorem cancelled_completion_c3_bug :
    (runTrace isDirAB initVM [Event.scanReq "A", Event.scanReq "B"]).busy = true ∧
    (∃ w ∈ (runTrace isDirAB initVM [Event.scanReq "A", Event.scanReq "B"]).workers,
      w.wid = 0 ∧ w.cancelled = true ∧ w.done = false) ∧
    (stepComplete (runTrace isDirAB initVM
        [Event.scanReq "A", Event.scanReq "B"]) 0 ["x"]).1.model
      = (runTrace isDirAB initVM [Event.scanReq "A", Event.scanReq "B"]).model ∧
    (stepComplete (runTrace isDirAB initVM
        [Event.scanReq "A", Event.scanReq "B"]) 0 ["x"]).1.currentWorker = some 1 ∧
    (stepComplete (runTrace isDirAB initVM
        [Event.scanReq "A", Event.scanReq "B"]) 0 ["x"]).1.busy = false ∧
    Output.busyChanged false ∈ (stepComplete (runTrace isDirAB initVM
        [Event.scanReq "A", Event.scanReq "B"]) 0 ["x"]).2 := by
  decide

/-- C4 as stated is false on the code: `scan("")` while a scan is in
flight clears the Result Store but does not touch the busy flag, so the
controller does not transition to Idle (`busy` stays `true`). -/
theorem scan_invalid_c4_counterexample :
    (runTrace isDirAB initVM [Event.scanReq "A", Event.scanReq ""]).model.paths = [] ∧
    (runTrace isDirAB initVM [Event.scanReq "A", Event.scanReq ""]).busy = true := by
  decide

/-- C4 amended: a `scan` call with an empty or non-directory path
replaces the Result Store with the empty sequence (one reset
notification, not an error) and returns at once, leaving the busy flag,
the current session and the worker list unchanged — so the controller is
Idle after the call exactly when no scan was in flight. -/
theorem scan_invalid_clears_c4_amended (isDir : String → Bool) (s : VMState)
    (path : String) (h : path = "" ∨ isDir path = false) :
    (stepScan isDir s path).1.model.paths = [] ∧
    (stepScan isDir s path).1.busy = s.busy ∧
    (stepScan isDir s path).1.currentWorker = s.currentWorker ∧
    (stepScan isDir s path).1.workers = s.workers ∧
    (stepScan isDir s path).2 = [Output.notif ModelNotif.resetModel] := by
  simp [stepScan, if_pos h, ImageListModel.replace]

/-- Witness for the amended C4: clearing with the empty path from a busy
state with a live session. -/
theorem scan_invalid_clears_c4_amended_witness :
    (("" : String) = "" ∨ isDirAB "" = false) ∧
    ((stepScan isDirAB (runTrace isDirAB initVM [Event.scanReq "A"]) "").1.model.paths = [] ∧
     (stepScan isDirAB (runTrace isDirAB initVM [Event.scanReq "A"]) "").1.busy
       = (runTrace isDirAB initVM [Event.scanReq "A"]).busy ∧
     (stepScan isDirAB (runTrace isDirAB initVM [Event.scanReq "A"]) "").1.currentWorker
       = (runTrace isDirAB initVM [Event.scanReq "A"]).currentWorker ∧
     (stepScan isDirAB (runTrace isDirAB initVM [Event.scanReq "A"]) "").1.workers
       = (runTrace isDirAB initVM [Event.scanReq "A"]).workers ∧
     (stepScan isDirAB (runTrace isDirAB initVM [Event.scanReq "A"]) "").2
       = [Output.notif ModelNotif.resetModel]) :=
  ⟨Or.inl rfl,
   scan_invalid_clears_c4_amended isDirAB
     (runTrace isDirAB initVM [Event.scanReq "A"]) "" (Or.inl rfl)⟩

/-- C5: when the still-live current session (its worker neither cancelled
nor already run) fails with an exception, the Result Store is untouched,
the busy flag becomes `false`, the session slot is cleared (Idle), and
the error is logged by the connected handler — nothing fatal, the step is
total. -/
theorem scan_failure_live_c5 (s : VMState) (wid : Nat) (w : ScanWorker)
    (msg : String) (hfind : findWorker s.workers wid = some w)
    (hcanc : w.cancelled = false) (hdone : w.done = false)
    (hcur : s.currentWorker = some wid) :
    (stepFail s wid msg).1.model = s.model ∧
    (stepFail s wid msg).1.busy = false ∧
    (stepFail s wid msg).1.currentWorker = none ∧
    Output.logged ("Scan error: " ++ msg) ∈ (stepFail s wid msg).2 := by
  simp [stepFail, hfind, hdone, hcanc, hcur, setBusy]

/-- Witness for C5: the single live session started by `scan("A")` fails. -/
theorem scan_failure_live_c5_witness :
    findWorker (runTrace isDirAB initVM [Event.scanReq "A"]).workers 0
      = some ⟨0, "A", false, false⟩ ∧
    ((stepFail (runTrace isDirAB initVM [Event.scanReq "A"]) 0 "boom").1.model
        = (runTrace isDirAB initVM [Event.scanReq "A"]).model ∧
      (stepFail (runTrace isDirAB initVM [Event.scanReq "A"]) 0 "boom").1.busy = false ∧
      (stepFail (runTrace isDirAB initVM [Event.scanReq "A"]) 0 "boom").1.currentWorker = none ∧
      Output.logged ("Scan error: " ++ "boom")
        ∈ (stepFail (runTrace isDirAB initVM [Event.scanReq "A"]) 0 "boom").2) :=
  ⟨by decide,
   scan_failure_live_c5 (runTrace isDirAB initVM [Event.scanReq "A"]) 0
     ⟨0, "A", false, false⟩ "boom" (by decide) rfl rfl (by decide)⟩

theorem cancelMark_ids (ws : List ScanWorker) (i : Nat) :
    (cancelMark ws i).map (fun w => w.wid) = ws.map (fun w => w.wid) := by
  simp only [cancelMark, List.map_map]
  have hfun : ((fun w => w.wid) ∘
      fun w => if w.wid = i then { w with cancelled := true } else w)
      = (fun (w : ScanWorker) => w.wid) := by
    funext w
    by_cases h : w.wid = i <;> simp [h]
  rw [hfun]

theorem markDone_ids (ws : List ScanWorker) (i : Nat) :
    (markDone ws i).map (fun w => w.wid) = ws.map (fun w => w.wid) := by
  simp only [markDone, List.map_map]
  have hfun : ((fun w => w.wid) ∘
      fun w => if w.wid = i then { w with done := true } else w)
      = (fun (w : ScanWorker) => w.wid) := by
    funext w
    by_cases h : w.wid = i <;> simp [h]
  rw [hfun]

theorem findWorker_mem {ws : List ScanWorker} {i : Nat} {w : ScanWorker}
    (h : findWorker ws i = some w) : w ∈ ws ∧ w.wid = i := by
  refine ⟨List.mem_of_find?_eq_some h, ?_⟩
  have := List.find?_some h
  simpa using this

theorem findWorker_of_mem : ∀ {ws : List ScanWorker},
    (ws.map (fun w => w.wid)).Nodup → ∀ {w : ScanWorker} {i : Nat},
    w ∈ ws → w.wid = i → findWorker ws i = some w := by
  intro ws
  induction ws with
  | nil => intro _ w i hw; exact absurd hw (List.not_mem_nil w)
  | cons u us ih =>
    intro hnd w i hw hwid
    obtain ⟨hu, hus⟩ : u.wid ∉ us.map (fun w => w.wid) ∧
        (us.map (fun w => w.wid)).Nodup := by simpa using hnd
    rcases List.mem_cons.mp hw with rfl | hw
    · simp [findWorker, List.find?, hwid]
    · have hne : u.wid ≠ i := by
        intro he
        refine hu ?_
        rw [he, ← hwid]
        exact List.mem_map_of_mem (fun w => w.wid) hw
      have : (u.wid == i) = false := by simpa using hne
      simp only [findWorker, List.find?, this]
      exact ih hus hw hwid

theorem vminv_stepScan (isDir : String → Bool) (s : VMState) (path : String)
    (h : VMInv s) : VMInv (stepScan isDir s path).1 := by
  obtain ⟨h1, h2, h3, h4⟩ := h
  by_cases hcond : path = "" ∨ isDir path = false
  · simp only [stepScan, if_pos hcond, ImageListModel.replace]
    exact ⟨h1, h2, h3, h4⟩
  · rcases hcw : s.currentWorker with _ | i
    · simp only [stepScan, if_neg hcond, hcw, setBusy]
      refine ⟨?_, ?_, ?_, ?_⟩
      · intro j hj
        simp only [workerIds, List.map_append] at hj
        rcases List.mem_append.mp hj with hj | hj
        · exact Nat.lt_succ_of_lt (h1 j hj)
        · simp only [List.map_cons, List.map_nil, List.mem_singleton] at hj
          exact hj ▸ Nat.lt_succ_self s.nextId
      · simp only [workerIds, List.map_append, List.map_cons, List.map_nil]
        rw [List.nodup_append]
        refine ⟨h2, List.nodup_singleton _, ?_⟩
        intro x hx hx1
        rw [List.mem_singleton] at hx1
        subst hx1
        exact absurd (h1 _ hx) (lt_irrefl _)
      · intro j hj
        simp only [Option.some.injEq] at hj
        subst hj
        simp [workerIds, List.map_append]
      · intro w hw hcanc hdone
        rcases List.mem_append.mp hw with hw | hw
        · exact absurd (hcw ▸ h4 w hw hcanc hdone) (by simp)
        · rw [List.mem_singleton] at hw
          subst hw
          rfl
    · simp only [stepScan, if_neg hcond, hcw, setBusy]
      refine ⟨?_, ?_, ?_, ?_⟩
      · intro j hj
        simp only [workerIds, List.map_append, cancelMark_ids] at hj
        rcases List.mem_append.mp hj with hj | hj
        · exact Nat.lt_succ_of_lt (h1 j hj)
        · simp only [List.map_cons, List.map_nil, List.mem_singleton] at hj
          exact hj ▸ Nat.lt_succ_self s.nextId
      · simp only [workerIds, List.map_append, cancelMark_ids,
          List.map_cons, List.map_nil]
        rw [List.nodup_append]
        refine ⟨h2, List.nodup_singleton _, ?_⟩
        intro x hx hx1
        rw [List.mem_singleton] at hx1
        subst hx1
        exact absurd (h1 _ hx) (lt_irrefl _)
      · intro j hj
        simp only [Option.some.injEq] at hj
        subst hj
        simp [workerIds, List.map_append, cancelMark_ids]
      · intro w hw hcanc hdone
        rcases List.mem_append.mp hw with hw | hw
        · obtain ⟨w0, hw0, hww⟩ := List.mem_map.mp hw
          by_cases hwi : w0.wid = i
          · rw [if_pos hwi] at hww
            subst hww
            exact absurd hcanc (by simp)
          · rw [if_neg hwi] at hww
            subst hww
            have := h4 w0 hw0 hcanc hdone
            rw [hcw] at this
            simp only [Option.some.injEq] at this
            exact absurd this.symm hwi
        · rw [List.mem_singleton] at hw
          subst hw
          rfl

theorem vminv_finish (s : VMState) (wid : Nat) (m : ImageListModel) (b : Bool)
    (h : VMInv s) :
    VMInv { model := m, busy := b,
            currentWorker :=
              if s.currentWorker = some wid then none else s.currentWorker,
            workers := markDone s.workers wid, nextId := s.nextId } := by
  obtain ⟨h1, h2, h3, h4⟩ := h
  refine ⟨?_, ?_, ?_, ?_⟩
  · intro j hj
    simp only [workerIds, markDone_ids] at hj
    exact h1 j hj
  · simp only [workerIds, markDone_ids]
    exact h2
  · intro j hj
    by_cases hcur : s.currentWorker = some wid
    · rw [if_pos hcur] at hj
      exact absurd hj (by simp)
    · rw [if_neg hcur] at hj
      simp only [workerIds, markDone_ids]
      exact h3 j hj
  · intro w hw hcanc hdone
    obtain ⟨w0, hw0, hww⟩ := List.mem_map.mp hw
    by_cases hwi : w0.wid = wid
    · rw [if_pos hwi] at hww
      subst hww
      exact absurd hdone (by simp)
    · rw [if_neg hwi] at hww
      subst hww
      have hc := h4 w0 hw0 hcanc hdone
      by_cases hcur : s.currentWorker = some wid
      · rw [hcur] at hc
        simp only [Option.some.injEq] at hc
        exact absurd hc.symm hwi
      · rw [if_neg hcur]
        exact hc

theorem vminv_stepComplete (s : VMState) (wid : Nat) (res : List String)
    (h : VMInv s) : VMInv (stepComplete s wid res).1 := by
  rcases hf : findWorker s.workers wid with _ | w
  · simpa [stepComplete, hf] using h
  · by_cases hd : w.done
    · simpa [stepComplete, hf, hd] using h
    · by_cases hc : w.cancelled
      · have : (stepComplete s wid res).1 =
            { model := s.model, busy := false,
              currentWorker :=
                if s.currentWorker = some wid then none else s.currentWorker,
              workers := markDone s.workers wid, nextId := s.nextId } := by
          simp [stepComplete, hf, hd, hc, setBusy]
        rw [this]
        exact vminv_finish s wid s.model false h
      · have : (stepComplete s wid res).1 =
            { model := ⟨res, []⟩, busy := false,
              currentWorker :=
                if s.currentWorker = some wid then none else s.currentWorker,
              workers := markDone s.workers wid, nextId := s.nextId } := by
          simp [stepComplete, hf, hd, hc, setBusy, ImageListModel.replace]
        rw [this]
        exact vminv_finish s wid ⟨res, []⟩ false h

theorem vminv_stepFail (s : VMState) (wid : Nat) (msg : String)
    (h : VMInv s) : VMInv (stepFail s wid msg).1 := by
  rcases hf : findWorker s.workers wid with _ | w
  · simpa [stepFail, hf] using h
  · by_cases hd : w.done
    · simpa [stepFail, hf, hd] using h
    · have : (stepFail s wid msg).1 =
          { model := s.model, busy := false,
            currentWorker :=
              if s.currentWorker = some wid then none else s.currentWorker,
            workers := markDone s.workers wid, nextId := s.nextId } := by
        simp [stepFail, hf, hd, setBusy]
      rw [this]
      exact vminv_finish s wid s.model false h

theorem vminv_step (isDir : String → Bool) (s : VMState) (e : Event)
    (h : VMInv s) : VMInv (step isDir s e).1 := by
  cases e with
  | scanReq path => exact vminv_stepScan isDir s path h
  | workerComplete wid res => exact vminv_stepComplete s wid res h
  | workerFail wid msg => exact vminv_stepFail s wid msg h
  | removeReq p =>
    obtain ⟨h1, h2, h3, h4⟩ := h
    exact ⟨h1, h2, h3, h4⟩

theorem vminv_initVM : VMInv initVM := by
  refine ⟨?_, ?_, ?_, ?_⟩ <;> simp [initVM, workerIds]

theorem vminv_runTrace (isDir : String → Bool) :
    ∀ (tr : List Event) (s : VMState), VMInv s → VMInv (runTrace isDir s tr) := by
  intro tr
  induction tr with
  | nil => intro s h; exact h
  | cons e es ih =>
    intro s h
    exact ih (step isDir s e).1 (vminv_step isDir s e h)

/-- C2: in any reachable controller state, requesting a new scan while a
session is in flight marks the in-flight worker as cancelled and makes
the fresh worker the only current session; a store publication (a model
reset emitted on worker completion) can only come from the live current
session, and a cancelled session's completion neither mutates the store
nor emits any model notification — so only the newest (live) session's
output ever reaches the store, regardless of completion order. -/
theorem scan_supersede_c2 (isDir : String → Bool) (tr : List Event) :
    (∀ path, ¬(path = "" ∨ isDir path = false) →
      ∀ i, (runTrace isDir initVM tr).currentWorker = some i →
        (∀ w ∈ (stepScan isDir (runTrace isDir initVM tr) path).1.workers,
            w.wid = i → w.cancelled = true) ∧
        (stepScan isDir (runTrace isDir initVM tr) path).1.currentWorker
          = some (runTrace isDir initVM tr).nextId) ∧
    (∀ wid res, Output.notif ModelNotif.resetModel
        ∈ (stepComplete (runTrace isDir initVM tr) wid res).2 →
      (runTrace isDir initVM tr).currentWorker = some wid ∧
      ∃ w ∈ (runTrace isDir initVM tr).workers,
        w.wid = wid ∧ w.cancelled = false ∧ w.done = false) ∧
    (∀ wid res w, w ∈ (runTrace isDir initVM tr).workers → w.wid = wid →
      w.cancelled = true →
      (stepComplete (runTrace isDir initVM tr) wid res).1.model
        = (runTrace isDir initVM tr).model ∧
      ∀ n, Output.notif n ∉ (stepComplete (runTrace isDir initVM tr) wid res).2) := by
  obtain ⟨h1, h2, h3, h4⟩ := vminv_runTrace isDir tr initVM vminv_initVM
  set s := runTrace isDir initVM tr with hs
  refine ⟨?_, ?_, ?_⟩
  · intro path hcond i hcur
    constructor
    · intro w hw hwid
      simp only [stepScan, if_neg hcond, hcur, setBusy] at hw
      rcases List.mem_append.mp hw with hw | hw
      · obtain ⟨w0, hw0, hww⟩ := List.mem_map.mp hw
        by_cases hwi : w0.wid = i
        · rw [if_pos hwi] at hww
          subst hww
          rfl
        · rw [if_neg hwi] at hww
          subst hww
          exact absurd hwid hwi
      · rw [List.mem_singleton] at hw
        subst hw
        have hni : s.nextId = i := hwid
        have := h1 i (h3 i hcur)
        rw [← hni] at this
        exact absurd this (lt_irrefl _)
    · simp only [stepScan, if_neg hcond, hcur, setBusy]
  · intro wid res hmem
    rcases hf : findWorker s.workers wid with _ | w
    · simp [stepComplete, hf] at hmem
    · by_cases hd : w.done
      · simp [stepComplete, hf, hd] at hmem
      · by_cases hc : w.cancelled
        · by_cases hb : s.busy = false <;>
            simp [stepComplete, hf, hd, hc, setBusy, hb] at hmem
        · obtain ⟨hwmem, hwid⟩ := findWorker_mem hf
          have hcanc : w.cancelled = false := by simpa using hc
          have hdone : w.done = false := by simpa using hd
          have hlive := h4 w hwmem hcanc hdone
          rw [hwid] at hlive
          exact ⟨hlive, w, hwmem, hwid, hcanc, hdone⟩
  · intro wid res w hw hwid hcanc
    have hf : findWorker s.workers wid = some w := findWorker_of_mem h2 hw hwid
    by_cases hd : w.done
    · refine ⟨by simp [stepComplete, hf, hd], ?_⟩
      intro n
      simp [stepComplete, hf, hd]
    · refine ⟨by simp [stepComplete, hf, hd, hcanc, setBusy], ?_⟩
      intro n
      by_cases hb : s.busy = false <;>
        simp [stepComplete, hf, hd, hcanc, setBusy, hb]

/-- Witness for C2: with one scan of "A" in flight, a scan of "B" cancels
worker 0 and makes the fresh worker current. -/
theorem scan_supersede_c2_witness :
    (¬(("B" : String) = "" ∨ isDirAB "B" = false)) ∧
    (runTrace isDirAB initVM [Event.scanReq "A"]).currentWorker = some 0 ∧
    (∀ w ∈ (stepScan isDirAB (runTrace isDirAB initVM [Event.scanReq "A"]) "B").1.workers,
        w.wid = 0 → w.cancelled = true) ∧
    (stepScan isDirAB (runTrace isDirAB initVM [Event.scanReq "A"]) "B").1.currentWorker
      = some (runTrace isDirAB initVM [Event.scanReq "A"]).nextId :=
  ⟨by decide, by decide,
   ((scan_supersede_c2 isDirAB [Event.scanReq "A"]).1 "B" (by decide) 0 (by decide)).1,
   ((scan_supersede_c2 isDirAB [Event.scanReq "A"]).1 "B" (by decide) 0 (by decide)).2⟩

theorem step_nodup (isDir : String → Bool) (s : VMState) (e : Event)
    (hm : s.model.paths.Nodup)
    (hres : ∀ wid res, e = Event.workerComplete wid res → res.Nodup) :
    (step isDir s e).1.model.paths.Nodup := by
  cases e with
  | scanReq path =>
    by_cases hcond : path = "" ∨ isDir path = false
    · simp [step, stepScan, if_pos hcond, ImageListModel.replace]
    · rcases hcw : s.currentWorker with _ | i <;>
        simp [step, stepScan, if_neg hcond, hcw, setBusy, hm]
  | workerComplete wid res =>
    rcases hf : findWorker s.workers wid with _ | w
    · simpa [step, stepComplete, hf] using hm
    · by_cases hd : w.done
      · simpa [step, stepComplete, hf, hd] using hm
      · by_cases hc : w.cancelled
        · simpa [step, stepComplete, hf, hd, hc, setBusy] using hm
        · have hr := hres wid res rfl
          simpa [step, stepComplete, hf, hd, hc, setBusy,
            ImageListModel.replace] using hr
  | workerFail wid msg =>
    rcases hf : findWorker s.workers wid with _ | w
    · simpa [step, stepFail, hf] using hm
    · by_cases hd : w.done
      · simpa [step, stepFail, hf, hd] using hm
      · simpa [step, stepFail, hf, hd, setBusy] using hm
  | removeReq p =>
    simp only [step, stepRemove]
    rcases hi : idxOfFirst p s.model.paths with _ | row
    · simpa [ImageListModel.remove_path, hi] using hm
    · simp only [ImageListModel.remove_path, hi]
      exact List.Nodup.sublist (List.eraseIdx_sublist _ _) hm

theorem runTrace_nodup (isDir : String → Bool) :
    ∀ (tr : List Event) (s : VMState), s.model.paths.Nodup →
    (∀ wid res, Event.workerComplete wid res ∈ tr → res.Nodup) →
    (runTrace isDir s tr).model.paths.Nodup := by
  intro tr
  induction tr with
  | nil => intro s hm _; exact hm
  | cons e es ih =>
    intro s hm hres
    refine ih (step isDir s e).1 (step_nodup isDir s e hm ?_) ?_
    · intro wid res he
      refine hres wid res ?_
      rw [← he]
      exact List.mem_cons_self e es
    · intro wid res hmem
      exact hres wid res (List.mem_cons_of_mem e hmem)

/-- C9: the Result Store never holds two entries with the same path:
starting from the empty store, every store operation along every trace —
the reset to `[]` on an invalid path, a worker publication of a
duplicate-free result, and `remove_path` — preserves uniqueness of the
path strings; and every scan result on a well-formed tree is itself
duplicate-free, so publications meet that hypothesis. -/
theorem store_nodup_c9 (isDir : String → Bool) (tr : List Event)
    (hres : ∀ wid res, Event.workerComplete wid res ∈ tr → res.Nodup) :
    (runTrace isDir initVM tr).model.paths.Nodup ∧
    (∀ root rname children exts,
      wfTree (FSTree.dir rname children) = true →
      (scan_images root (some (FSTree.dir rname children)) exts).Nodup) := by
  constructor
  · exact runTrace_nodup isDir tr initVM (by simp [initVM]) hres
  · intro root rname children exts hwf
    obtain ⟨_, hnn, hwff⟩ := wfTree_dir_parts hwf
    have hperm := List.perm_insertionSort (fun a b => strLeB a b = true)
      (walkForest (exts.map strToLower) root children)
    exact hperm.nodup_iff.mpr (walkForest_nodup children _ root hnn hwff)

/-- Witness for C9: a trace that publishes a concrete duplicate-free scan
result and then removes one path. -/
theorem store_nodup_c9_witness :
    (runTrace isDirAB initVM
      [Event.scanReq "A", Event.workerComplete 0 ["A/a.png", "A/b.jpg"],
       Event.removeReq "A/a.png"]).model.paths.Nodup :=
  (store_nodup_c9 isDirAB
    [Event.scanReq "A", Event.workerComplete 0 ["A/a.png", "A/b.jpg"],
     Event.removeReq "A/a.png"]
    (by
      intro wid res hmem
      simp only [List.mem_cons, List.not_mem_nil, or_false] at hmem
      rcases hmem with h | h | h
      · exact Event.noConfusion h
      · injection h with h1 h2
        rw [h2]
        decide
      · exact Event.noConfusion h)).1

theorem isPrefixOf_true_iff {α : Type} [BEq α] [LawfulBEq α] :
    ∀ (a b : List α), a.isPrefixOf b = true ↔ ∃ t, a ++ t = b
  | [], b => by simp [List.isPrefixOf]
  | a :: as, [] => by simp [List.isPrefixOf]
  | a :: as, b :: bs => by
    simp only [List.isPrefixOf, Bool.and_eq_true, beq_iff_eq,
      isPrefixOf_true_iff as bs]
    constructor
    · rintro ⟨rfl, t, rfl⟩
      exact ⟨t, rfl⟩
    · rintro ⟨t, ht⟩
      injection ht with h1 h2
      exact ⟨h1, t, h2⟩

theorem listHasInfixOf_iff : ∀ (sub s : List Char),
    listHasInfixOf sub s = true ↔ ∃ l r, s = l ++ sub ++ r
  | sub, [] => by
    simp only [listHasInfixOf, List.isEmpty_iff]
    constructor
    · rintro rfl
      exact ⟨[], [], rfl⟩
    · rintro ⟨l, r, h⟩
      rcases List.append_eq_nil.mp h.symm with ⟨h1, _⟩
      exact (List.append_eq_nil.mp h1).2
  | sub, c :: rest => by
    simp only [listHasInfixOf, Bool.or_eq_true, isPrefixOf_true_iff,
      listHasInfixOf_iff sub rest]
    constructor
    · rintro (⟨t, ht⟩ | ⟨l, r, hr⟩)
      · refine ⟨[], t, ?_⟩
        rw [List.nil_append]
        exact ht.symm
      · exact ⟨c :: l, r, by simp [hr]⟩
    · rintro ⟨l, r, h⟩
      cases l with
      | nil =>
        left
        exact ⟨r, by simpa using h.symm⟩
      | cons x l =>
        right
        simp only [List.cons_append] at h
        injection h with h1 h2
        exact ⟨l, r, h2⟩

theorem containsCI_iff (s sub : String) :
    containsCI s sub = true ↔ ContainsCISpec s sub := by
  simp only [containsCI, ContainsCISpec, listHasInfixOf_iff]

theorem listHasInfixOf_nil : ∀ s : List Char, listHasInfixOf [] s = true
  | [] => rfl
  | c :: rest => by simp [listHasInfixOf, List.isPrefixOf]

theorem containsCI_empty (s : String) : containsCI s "" = true :=
  listHasInfixOf_nil _

/-- C6: after `replace(ps)`, the filtered view for a substring is exactly
the entries of the store whose display name (`basename`) contains the
substring case-insensitively, kept in the store's relative order (the
view is a sublist of the store); the empty substring gives the identity
view. -/
theorem filtered_view_c6 (m : ImageListModel) (ps : List String)
    (filt : String) :
    (∀ p, p ∈ filteredView ((m.replace ps).1.paths) filt ↔
      p ∈ ps ∧ ContainsCISpec (basename p) filt) ∧
    List.Sublist (filteredView ((m.replace ps).1.paths) filt) ps ∧
    filteredView ((m.replace ps).1.paths) "" = ps := by
  have hrep : (m.replace ps).1.paths = ps := rfl
  rw [hrep]
  refine ⟨?_, List.filter_sublist ps, ?_⟩
  · intro p
    simp only [filteredView, List.mem_filter, containsCI_iff]
  · rw [filteredView]
    apply List.filter_eq_self.mpr
    intro a _
    exact containsCI_empty (basename a)

theorem idxOfFirst_none_iff (p : String) :
    ∀ (l : List String), idxOfFirst p l = none ↔ p ∉ l
  | [] => by simp [idxOfFirst]
  | q :: qs => by
    by_cases h : q = p
    · simp [idxOfFirst, h]
    · simp only [idxOfFirst, if_neg h, Option.map_eq_none', List.mem_cons,
        idxOfFirst_none_iff p qs]
      constructor
      · intro hq hor
        rcases hor with rfl | hm
        · exact h rfl
        · exact hq hm
      · intro hor
        exact fun hm => hor (Or.inr hm)

theorem idxOfFirst_some (p : String) : ∀ {l : List String} {i : Nat},
    idxOfFirst p l = some i →
    l[i]? = some p ∧ ∀ j, j < i → l[j]? ≠ some p := by
  intro l
  induction l with
  | nil => intro i h; exact Option.noConfusion h
  | cons q qs ih =>
    intro i h
    by_cases hq : q = p
    · rw [idxOfFirst, if_pos hq] at h
      injection h with h0
      subst h0
      refine ⟨by simpa using hq, ?_⟩
      intro j hj
      exact absurd hj (Nat.not_lt_zero j)
    · rw [idxOfFirst, if_neg hq] at h
      rcases ho : idxOfFirst p qs with _ | i0
      · rw [ho] at h
        exact Option.noConfusion h
      · rw [ho] at h
        simp only [Option.map_some'] at h
        injection h with h0
        subst h0
        obtain ⟨hrow, hmin⟩ := ih ho
        refine ⟨by simpa using hrow, ?_⟩
        intro j hj
        cases j with
        | zero =>
          simp only [List.getElem?_cons_zero]
          intro hcontra
          injection hcontra with hc
          exact hq hc
        | succ j0 =>
          simp only [List.getElem?_cons_succ]
          exact hmin j0 (Nat.lt_of_succ_lt_succ hj)

/-- C7: `remove_path(p)` is a no-op with no notification when `p` is
absent; when `p` is present it removes exactly the first occurrence —
the entries before and after the removed row are kept in order — the
length drops by one and exactly one single-row removal notification is
fired. -/
theorem remove_path_c7 (m : ImageListModel) (p : String) :
    (p ∉ m.paths → m.remove_path p = (m, [])) ∧
    (p ∈ m.paths → ∃ row,
      m.paths[row]? = some p ∧
      (∀ j, j < row → m.paths[j]? ≠ some p) ∧
      (m.remove_path p).1.paths = m.paths.take row ++ m.paths.drop (row + 1) ∧
      (m.remove_path p).1.paths.length + 1 = m.paths.length ∧
      (m.remove_path p).2 = [ModelNotif.removedRows row row]) := by
  constructor
  · intro hp
    have hi : idxOfFirst p m.paths = none := (idxOfFirst_none_iff p _).mpr hp
    simp [ImageListModel.remove_path, hi]
  · intro hp
    rcases hi : idxOfFirst p m.paths with _ | row
    · exact absurd ((idxOfFirst_none_iff p _).mp hi) (by simpa using hp)
    · obtain ⟨hrow, hmin⟩ := idxOfFirst_some p hi
      have hlt : row < m.paths.length := by
        by_contra hge
        rw [List.getElem?_eq_none (Nat.le_of_not_lt hge)] at hrow
        exact Option.noConfusion hrow
      refine ⟨row, hrow, hmin, ?_, ?_, ?_⟩
      · simp [ImageListModel.remove_path, hi,
          List.eraseIdx_eq_take_drop_succ]
      · simp only [ImageListModel.remove_path, hi]
        rw [List.length_eraseIdx_of_lt hlt]
        omega
      · simp [ImageListModel.remove_path, hi]

/-- Witness for C7: removing an absent path is a silent no-op, removing a
present one removes exactly that row with one notification. -/
theorem remove_path_c7_witness :
    (("zzz" : String) ∉ ["a.png", "b.jpg"] ∧
      ImageListModel.remove_path ⟨["a.png", "b.jpg"], []⟩ "zzz"
        = (⟨["a.png", "b.jpg"], []⟩, [])) ∧
    (("b.jpg" : String) ∈ ["a.png", "b.jpg"] ∧ ∃ row,
      (["a.png", "b.jpg"] : List String)[row]? = some "b.jpg" ∧
      (∀ j, j < row → (["a.png", "b.jpg"] : List String)[j]? ≠ some "b.jpg") ∧
      (ImageListModel.remove_path ⟨["a.png", "b.jpg"], []⟩ "b.jpg").1.paths
        = (["a.png", "b.jpg"] : List String).take row
          ++ (["a.png", "b.jpg"] : List String).drop (row + 1) ∧
      (ImageListModel.remove_path ⟨["a.png", "b.jpg"], []⟩ "b.jpg").1.paths.length + 1
        = (["a.png", "b.jpg"] : List String).length ∧
      (ImageListModel.remove_path ⟨["a.png", "b.jpg"], []⟩ "b.jpg").2
        = [ModelNotif.removedRows row row]) :=
  ⟨⟨by decide,
    (remove_path_c7 ⟨["a.png", "b.jpg"], []⟩ "zzz").1 (by decide)⟩,
   ⟨by decide,
    (remove_path_c7 ⟨["a.png", "b.jpg"], []⟩ "b.jpg").2 (by decide)⟩⟩

/-- C10: `data` on an invalid index returns `None` without touching the
path list; on a valid in-range index with a role other than display,
file-path or decoration it returns `None`; and on any valid in-range
index it never faults (the outer `Option` is never `none`). -/
theorem data_safe_c10 (m : ImageListModel) (index : ModelIndex) (role : Nat) :
    (index.valid = false → m.data index role = some (none, m)) ∧
    (index.valid = true → index.row < m.paths.length →
      role ≠ displayRole → role ≠ FILEPATH_ROLE → role ≠ decorationRole →
      m.data index role = some (none, m)) ∧
    (index.valid = true → index.row < m.paths.length →
      m.data index role ≠ none) := by
  refine ⟨?_, ?_, ?_⟩
  · intro hv
    simp [ImageListModel.data, hv]
  · intro hv hr hd hf hdec
    have hget := List.getElem?_eq_getElem hr
    simp [ImageListModel.data, hv, hget, hd, hf, hdec]
  · intro hv hr
    have hget := List.getElem?_eq_getElem hr
    simp only [ImageListModel.data, hv, Bool.true_eq_false, if_false, hget]
    split_ifs <;> try simp
    rcases m.thumbs.lookup (m.paths[index.row]) with _ | icon <;> simp

/-- Witness for C10: a concrete invalid index, a valid index with an
unknown role, and fault-freedom at a valid index. -/
theorem data_safe_c10_witness :
    (ImageListModel.data ⟨["a.png"], []⟩ ⟨false, 5⟩ 7
      = some (none, ⟨["a.png"], []⟩)) ∧
    (ImageListModel.data ⟨["a.png"], []⟩ ⟨true, 0⟩ 7
      = some (none, ⟨["a.png"], []⟩)) ∧
    (ImageListModel.data ⟨["a.png"], []⟩ ⟨true, 0⟩ 1 ≠ none) :=
  ⟨(data_safe_c10 ⟨["a.png"], []⟩ ⟨false, 5⟩ 7).1 rfl,
   (data_safe_c10 ⟨["a.png"], []⟩ ⟨true, 0⟩ 7).2.1 rfl (by decide)
     (by decide) (by decide) (by decide),
   (data_safe_c10 ⟨["a.png"], []⟩ ⟨true, 0⟩ 1).2.2 rfl (by decide)⟩
